import Mathlib

/-!
Verification of the UI-hierarchy parser and tree utilities of the batdroid
repository (source module: the UIAutomator dump parser, `parseBounds`,
`parseUiAutomatorXml`, `extractAttr`, `getUiHierarchy`, `findElements`,
`elementCenter`, `shortenClassName`, `formatCompactTree`, `flattenHierarchy`).

The TypeScript source is shallowly embedded:
* JS strings become `String` (scanning helpers work on `String.data : List Char`);
* JS numbers in this module are integer-valued screen coordinates; they are
  modelled as `Nat`/`Int` (the float64 representation is exact on this range,
  so no rounding model is needed except in `Math.round`, modelled explicitly);
* the element tree uses a mutually inductive `UiElement`/`UiList` pair so that
  every traversal is structural and kernel-computable;
* the two regular expressions of the module (`parseBounds`'s bounds pattern and
  `extractAttr`'s attribute pattern) are embedded as explicit leftmost-match
  scanners that implement exactly the backtracking behaviour of the original
  patterns (both patterns are deterministic: every greedy/lazy repetition in
  them is cut off by a forbidden follower character, so the leftmost match is
  computed by a single scan).
-/

/-- Rectangle produced by the bounds codec: `{x, y, width, height}`.
Width/height are `right-left` / `bottom-top` and may be negative. -/
structure Rect where
  x : Int
  y : Int
  width : Int
  height : Int
deriving DecidableEq, Repr

/-!
Element node of the accessibility tree (`UiElement` in the source), with its
ordered sequence of children.  `UiList` is the type of forests.  A mutual
inductive pair is used instead of `List UiElement` so that recursion over the
tree is structural (and hence kernel-computable).
-/
mutual
inductive UiElement where
  | mk (resource_id text content_desc className packageName : String)
       (bounds : Rect) (clickable enabled scrollable : Bool)
       (children : UiList)
inductive UiList where
  | nil
  | cons (el : UiElement) (rest : UiList)
end

def UiElement.resource_id : UiElement → String
  | .mk v _ _ _ _ _ _ _ _ _ => v

def UiElement.text : UiElement → String
  | .mk _ v _ _ _ _ _ _ _ _ => v

def UiElement.content_desc : UiElement → String
  | .mk _ _ v _ _ _ _ _ _ _ => v

def UiElement.className : UiElement → String
  | .mk _ _ _ v _ _ _ _ _ _ => v

def UiElement.packageName : UiElement → String
  | .mk _ _ _ _ v _ _ _ _ _ => v

def UiElement.bounds : UiElement → Rect
  | .mk _ _ _ _ _ v _ _ _ _ => v

def UiElement.clickable : UiElement → Bool
  | .mk _ _ _ _ _ _ v _ _ _ => v

def UiElement.enabled : UiElement → Bool
  | .mk _ _ _ _ _ _ _ v _ _ => v

def UiElement.scrollable : UiElement → Bool
  | .mk _ _ _ _ _ _ _ _ v _ => v

def UiElement.children : UiElement → UiList
  | .mk _ _ _ _ _ _ _ _ _ v => v

/-- Append on forests (used for attaching children in source order). -/
def UiList.append : UiList → UiList → UiList
  | .nil, ys => ys
  | .cons x xs, ys => .cons x (UiList.append xs ys)

/-- Add one element at the end of a forest (JS `array.push(el)`). -/
def UiList.snoc (xs : UiList) (x : UiElement) : UiList :=
  UiList.append xs (.cons x .nil)

/-- Total number of nodes in a forest. -/
def forestSize : UiList → Nat
  | .nil => 0
  | .cons (.mk _ _ _ _ _ _ _ _ _ cs) rest => 1 + forestSize cs + forestSize rest

/-- Height of a forest: every node depth (root = 0) is strictly below it. -/
def forestHeight : UiList → Nat
  | .nil => 0
  | .cons (.mk _ _ _ _ _ _ _ _ _ cs) rest =>
      max (1 + forestHeight cs) (forestHeight rest)

/-- Structural induction principle for forests: the property may be assumed
both for the children of the first element and for the remaining elements. -/
theorem forestInd (P : UiList → Prop) (h0 : P .nil)
    (h1 : ∀ a b c d e f g h i cs rest, P cs → P rest →
      P (.cons (.mk a b c d e f g h i cs) rest)) : ∀ els, P els := by
  have key : ∀ n els, forestSize els ≤ n → P els := by
    intro n
    induction n with
    | zero =>
      intro els hle
      cases els with
      | nil => exact h0
      | cons el rest =>
        cases el with
        | mk a b c d e f g h' i cs => simp [forestSize] at hle
    | succ n ih =>
      intro els hle
      cases els with
      | nil => exact h0
      | cons el rest =>
        cases el with
        | mk a b c d e f g h' i cs =>
          simp only [forestSize] at hle
          exact h1 a b c d e f g h' i cs rest (ih cs (by omega)) (ih rest (by omega))
  intro els
  exact key (forestSize els) els (le_refl _)

/-! ## Bounds codec (`parseBounds`)

The source matches `boundsStr` against the unanchored regular expression
`\[(\d+),(\d+)\]\[(\d+),(\d+)\]` and on success returns
`{x: left, y: top, width: right-left, height: bottom-top}`, otherwise the
zero rectangle.  The regex is embedded as a leftmost-match scanner: each
`\d+` is a maximal run of decimal digits (maximal munch is equivalent to the
greedy repetition here because the follower characters `,` `]` are not
digits, so backtracking can never produce a different match). -/

def digitVal (c : Char) : Nat := c.toNat - 48

/-- Consume a maximal run of decimal digits, accumulating their value
(`parseInt(s, 10)` on the digit-only capture group; exact, since the source's
values are screen coordinates far below the float53 limit). -/
def takeDigits : List Char → Nat → Nat × List Char
  | [], acc => (acc, [])
  | c :: r, acc => if c.isDigit then takeDigits r (10 * acc + digitVal c) else (acc, c :: r)

/-- Match `\d+`: at least one digit, maximal munch. -/
def readNum (l : List Char) : Option (Nat × List Char) :=
  match l with
  | [] => none
  | c :: _ => if c.isDigit then some (takeDigits l 0) else none

/-- Match one literal character. -/
def expectChar (c : Char) : List Char → Option (List Char)
  | [] => none
  | d :: r => if d = c then some r else none

/-- Attempt the bounds pattern at the current position. -/
def tryBoundsAt (l : List Char) : Option (Nat × Nat × Nat × Nat) :=
  (expectChar '[' l).bind fun l1 =>
  (readNum l1).bind fun p1 =>
  (expectChar ',' p1.2).bind fun l2 =>
  (readNum l2).bind fun p2 =>
  (expectChar ']' p2.2).bind fun l3 =>
  (expectChar '[' l3).bind fun l4 =>
  (readNum l4).bind fun p3 =>
  (expectChar ',' p3.2).bind fun l5 =>
  (readNum l5).bind fun p4 =>
  (expectChar ']' p4.2).bind fun _ =>
  some (p1.1, p2.1, p3.1, p4.1)

/-- Leftmost match of the bounds pattern (the JS regex engine tries each start
position from the left). -/
def scanBounds : List Char → Option (Nat × Nat × Nat × Nat)
  | [] => none
  | c :: r =>
    match tryBoundsAt (c :: r) with
    | some t => some t
    | none => scanBounds r

/-- Embedding of `parseBounds` (source lines 26-43). -/
def parseBounds (boundsStr : String) : Rect :=
  match scanBounds boundsStr.data with
  | none => { x := 0, y := 0, width := 0, height := 0 }
  | some (a, b, c, d) =>
      { x := (a : Int), y := (b : Int),
        width := (c : Int) - (a : Int), height := (d : Int) - (b : Int) }

/-! Decimal rendering of a natural number, used to state the round-trip
property of the bounds codec over every well-formed bounds string. -/

def digitChar (d : Nat) : Char := Char.ofNat (48 + d)

/-- Decimal digits of `n`, most significant first; `fuel` bounds the number of
divisions (any `fuel > n` is enough). -/
def natCharsAux : Nat → Nat → List Char
  | 0, _ => []
  | fuel + 1, n =>
      if n < 10 then [digitChar n]
      else natCharsAux fuel (n / 10) ++ [digitChar (n % 10)]

def natChars (n : Nat) : List Char := natCharsAux (n + 1) n

/-- Canonical well-formed bounds string `[a,b][c,d]`. -/
def mkBoundsChars (a b c d : Nat) : List Char :=
  '[' :: (natChars a ++ (',' :: (natChars b ++
    (']' :: '[' :: (natChars c ++ (',' :: (natChars d ++ [']'])))))))

def mkBoundsStr (a b c d : Nat) : String := String.mk (mkBoundsChars a b c d)

/-- Value of a digit list read most-significant-first on top of `acc`. -/
def foldDigits : List Char → Nat → Nat
  | [], acc => acc
  | c :: r, acc => foldDigits r (10 * acc + digitVal c)

def headIsDigit : List Char → Bool
  | [] => false
  | c :: _ => c.isDigit

theorem headIsDigit_comma (t : List Char) : headIsDigit (',' :: t) = false := by
  simp only [headIsDigit]; decide

theorem headIsDigit_rbracket (t : List Char) : headIsDigit (']' :: t) = false := by
  simp only [headIsDigit]; decide

theorem foldDigits_append (xs ys : List Char) :
    ∀ acc, foldDigits (xs ++ ys) acc = foldDigits ys (foldDigits xs acc) := by
  induction xs with
  | nil => intro acc; simp [foldDigits]
  | cons c r ih => intro acc; simp only [List.cons_append, foldDigits]; exact ih _

theorem takeDigits_append (ds : List Char) :
    ∀ (rest : List Char) (acc : Nat), (∀ c ∈ ds, c.isDigit = true) →
      headIsDigit rest = false →
      takeDigits (ds ++ rest) acc = (foldDigits ds acc, rest) := by
  induction ds with
  | nil =>
    intro rest acc _ hr
    cases rest with
    | nil => simp [takeDigits, foldDigits]
    | cons c r =>
      simp only [headIsDigit] at hr
      simp [takeDigits, hr, foldDigits]
  | cons d ds ih =>
    intro rest acc hd hr
    have hdig : d.isDigit = true := hd d (by simp)
    simp only [List.cons_append, takeDigits, hdig, if_pos, foldDigits]
    exact ih rest (10 * acc + digitVal d) (fun c hc => hd c (by simp [hc])) hr

theorem digitChar_isDigit (n : Nat) (h : n < 10) : (digitChar n).isDigit = true := by
  interval_cases n <;> decide

theorem digitVal_digitChar (n : Nat) (h : n < 10) : digitVal (digitChar n) = n := by
  interval_cases n <;> decide

theorem natCharsAux_digits (fuel : Nat) :
    ∀ n, n < fuel → ∀ c ∈ natCharsAux fuel n, c.isDigit = true := by
  induction fuel with
  | zero => intro n h; omega
  | succ f ih =>
    intro n h c hc
    by_cases h10 : n < 10
    · simp only [natCharsAux, if_pos h10, List.mem_singleton] at hc
      exact hc ▸ digitChar_isDigit n h10
    · simp only [natCharsAux, if_neg h10, List.mem_append, List.mem_singleton] at hc
      rcases hc with hc | hc
      · exact ih (n / 10) (by omega) c hc
      · exact hc ▸ digitChar_isDigit (n % 10) (by omega)

theorem natCharsAux_ne_nil (fuel n : Nat) (h : n < fuel) : natCharsAux fuel n ≠ [] := by
  cases fuel with
  | zero => omega
  | succ f =>
    by_cases h10 : n < 10
    · simp [natCharsAux, h10]
    · simp [natCharsAux, h10]

theorem foldDigits_natCharsAux (fuel : Nat) :
    ∀ n acc, n < fuel →
      foldDigits (natCharsAux fuel n) acc = acc * 10 ^ (natCharsAux fuel n).length + n := by
  induction fuel with
  | zero => intro n acc h; omega
  | succ f ih =>
    intro n acc h
    by_cases h10 : n < 10
    · simp only [natCharsAux, if_pos h10, foldDigits, List.length_singleton]
      rw [digitVal_digitChar n h10]
      ring
    · simp only [natCharsAux, if_neg h10]
      rw [foldDigits_append]
      simp only [foldDigits]
      rw [ih (n / 10) acc (by omega), digitVal_digitChar (n % 10) (by omega),
        List.length_append, List.length_singleton, pow_succ, ← mul_assoc]
      generalize acc * (10 : Nat) ^ (natCharsAux f (n / 10)).length = Y
      omega

theorem readNum_natChars (n : Nat) (rest : List Char) (hr : headIsDigit rest = false) :
    readNum (natChars n ++ rest) = some (n, rest) := by
  unfold natChars
  cases hA : natCharsAux (n + 1) n with
  | nil => exact absurd hA (natCharsAux_ne_nil (n + 1) n (by omega))
  | cons c cs =>
    have hdigs : ∀ d ∈ natCharsAux (n + 1) n, d.isDigit = true :=
      natCharsAux_digits (n + 1) n (by omega)
    have hc : c.isDigit = true := hdigs c (by simp [hA])
    simp only [List.cons_append, readNum, hc, if_pos]
    have ht := takeDigits_append (c :: cs) rest 0 (fun d hd => hdigs d (by simp [hA, hd])) hr
    simp only [List.cons_append] at ht
    rw [ht]
    have hv := foldDigits_natCharsAux (n + 1) n 0 (by omega)
    rw [hA] at hv
    simp only [hv, Nat.zero_mul, Nat.zero_add]

theorem tryBoundsAt_mk (a b c d : Nat) :
    tryBoundsAt ('[' :: (natChars a ++ (',' :: (natChars b ++
      (']' :: '[' :: (natChars c ++ (',' :: (natChars d ++ [']'])))))))) =
      some (a, b, c, d) := by
  simp only [tryBoundsAt, expectChar, if_pos, Option.bind_some, Option.some_bind]
  rw [readNum_natChars a _ (headIsDigit_comma _)]
  simp only [Option.some_bind, expectChar, if_pos]
  rw [readNum_natChars b _ (headIsDigit_rbracket _)]
  simp only [Option.some_bind, expectChar, if_pos]
  rw [readNum_natChars c _ (headIsDigit_comma _)]
  simp only [Option.some_bind, expectChar, if_pos]
  rw [readNum_natChars d [']'] (headIsDigit_rbracket _)]
  simp only [Option.some_bind, expectChar, if_pos]

theorem scanBounds_mk (a b c d : Nat) :
    scanBounds (mkBoundsChars a b c d) = some (a, b, c, d) := by
  simp only [mkBoundsChars, scanBounds, tryBoundsAt_mk]

/-- C2: for every input string in which the bounds pattern `[a,b][c,d]`
matches (leftmost match of the embedded regex, groups `a b c d`),
`parseBounds` returns exactly `{x: a, y: b, width: c-a, height: d-b}`, the
subtractions being signed and never clamped; in particular this holds for
every canonical well-formed bounds string `[a,b][c,d]`, for all naturals
`a b c d`. -/
theorem thm_C2_parseBounds_match :
    (∀ (s : String) (a b c d : Nat), scanBounds s.data = some (a, b, c, d) →
      parseBounds s = Rect.mk (a : Int) (b : Int) ((c : Int) - (a : Int)) ((d : Int) - (b : Int)))
    ∧ (∀ a b c d : Nat,
      parseBounds (mkBoundsStr a b c d) =
        Rect.mk (a : Int) (b : Int) ((c : Int) - (a : Int)) ((d : Int) - (b : Int))) := by
  constructor
  · intro s a b c d h
    simp [parseBounds, h]
  · intro a b c d
    show parseBounds (String.mk (mkBoundsChars a b c d)) = _
    unfold parseBounds
    rw [show (String.mk (mkBoundsChars a b c d)).data = mkBoundsChars a b c d from rfl]
    rw [scanBounds_mk]

/-- Witness for C2: the inverted source rectangle `[5,6][2,3]` decodes to
negative width and height `-3`, preserved rather than clamped. -/
theorem w_C2 : parseBounds "[5,6][2,3]" =
    { x := 5, y := 6, width := -3, height := -3 } :=
  thm_C2_parseBounds_match.1 "[5,6][2,3]" 5 6 2 3 (by decide)

/-- C8: for every input string on which the bounds pattern finds no match,
`parseBounds` returns the zero rectangle (and, being a total function, signals
no exception); in particular on `"garbage"`, `""` and `"[1,2]"`. -/
theorem thm_C8_parseBounds_nonmatch :
    (∀ s : String, scanBounds s.data = none →
      parseBounds s = { x := 0, y := 0, width := 0, height := 0 })
    ∧ parseBounds "garbage" = { x := 0, y := 0, width := 0, height := 0 }
    ∧ parseBounds "" = { x := 0, y := 0, width := 0, height := 0 }
    ∧ parseBounds "[1,2]" = { x := 0, y := 0, width := 0, height := 0 } := by
  refine ⟨fun s h => by simp [parseBounds, h], by decide, by decide, by decide⟩

/-- Witness for C8: the general non-match clause applied at `"garbage"`. -/
theorem w_C8 : parseBounds "garbage" = { x := 0, y := 0, width := 0, height := 0 } :=
  thm_C8_parseBounds_nonmatch.1 "garbage" (by decide)

/-! ## Attribute extraction (`extractAttr`, source lines 99-103)

The source builds the regex `name="([^"]*)"` and returns the first capture
group, or `""` on no match.  Embedded as the leftmost position at which the
literal `name="` occurs followed (somewhere) by a closing quote; the lazy-free
`[^"]*` capture is the run of non-quote characters after `name="`. -/

def tryAttrAt (pat l : List Char) : Option (List Char) :=
  if pat.isPrefixOf l then
    let after := l.drop pat.length
    if after.contains '"' then some (after.takeWhile (fun c => c != '"')) else none
  else none

def scanAttr (pat : List Char) : List Char → Option (List Char)
  | [] => none
  | c :: r =>
    match tryAttrAt pat (c :: r) with
    | some v => some v
    | none => scanAttr pat r

/-- Result of the attribute regex: `some value` on a match, `none` otherwise. -/
def extractAttrM (attrs name : String) : Option String :=
  (scanAttr (name.data ++ ['=', '"']) attrs.data).map String.mk

/-- Embedding of `extractAttr` (source lines 99-103): the matched value, or
`""` when the attribute pattern does not occur. -/
def extractAttr (attrs name : String) : String :=
  match extractAttrM attrs name with
  | some v => v
  | none => ""

/-- Node construction performed for every opening/self-closing tag
(source lines 69-80), from the tag's raw attribute substring. -/
def mkUiElement (attrs : String) : UiElement :=
  UiElement.mk (extractAttr attrs "resource-id") (extractAttr attrs "text")
    (extractAttr attrs "content-desc") (extractAttr attrs "class")
    (extractAttr attrs "package")
    (parseBounds (extractAttr attrs "bounds"))
    (extractAttr attrs "clickable" == "true") (extractAttr attrs "enabled" == "true")
    (extractAttr attrs "scrollable" == "true") UiList.nil

/-- C5: for every tag attribute substring, each of the five string attributes
that is absent (its `name="..."` pattern finds no match) yields `""` in the
built node, and each boolean attribute is `true` iff its extracted string
value is exactly `"true"` (so `"1"`, absence, or any other value gives
`false`). -/
theorem thm_C5_attr_defaults (attrs : String) :
    ((extractAttrM attrs "resource-id" = none → (mkUiElement attrs).resource_id = "")
      ∧ (extractAttrM attrs "text" = none → (mkUiElement attrs).text = "")
      ∧ (extractAttrM attrs "content-desc" = none → (mkUiElement attrs).content_desc = "")
      ∧ (extractAttrM attrs "class" = none → (mkUiElement attrs).className = "")
      ∧ (extractAttrM attrs "package" = none → (mkUiElement attrs).packageName = ""))
    ∧ ((mkUiElement attrs).clickable = true ↔ extractAttr attrs "clickable" = "true")
    ∧ ((mkUiElement attrs).enabled = true ↔ extractAttr attrs "enabled" = "true")
    ∧ ((mkUiElement attrs).scrollable = true ↔ extractAttr attrs "scrollable" = "true") := by
  refine ⟨⟨?_, ?_, ?_, ?_, ?_⟩, ?_, ?_, ?_⟩
  · intro h; simp [mkUiElement, UiElement.resource_id, extractAttr, h]
  · intro h; simp [mkUiElement, UiElement.text, extractAttr, h]
  · intro h; simp [mkUiElement, UiElement.content_desc, extractAttr, h]
  · intro h; simp [mkUiElement, UiElement.className, extractAttr, h]
  · intro h; simp [mkUiElement, UiElement.packageName, extractAttr, h]
  · simp [mkUiElement, UiElement.clickable]
  · simp [mkUiElement, UiElement.enabled]
  · simp [mkUiElement, UiElement.scrollable]

/-- Witness for C5: on the attribute substring `clickable="1" enabled="true"`,
the absent `resource-id` defaults to `""`, `enabled` (value `"true"`) is
`true`, and `clickable` (value `"1"`) is not `true`. -/
theorem w_C5 : (mkUiElement "clickable=\"1\" enabled=\"true\"").resource_id = ""
    ∧ (mkUiElement "clickable=\"1\" enabled=\"true\"").enabled = true
    ∧ ¬ (mkUiElement "clickable=\"1\" enabled=\"true\"").clickable = true :=
  ⟨(thm_C5_attr_defaults "clickable=\"1\" enabled=\"true\"").1.1 (by decide),
   ((thm_C5_attr_defaults "clickable=\"1\" enabled=\"true\"").2.2.1).mpr (by decide),
   fun h => by
    have := ((thm_C5_attr_defaults "clickable=\"1\" enabled=\"true\"").2.1).mp h
    exact absurd this (by decide)⟩

/-! ## Tree query engine (`findElements`, source lines 127-161) -/

/-- Selector record: absent fields (`none`) are wildcards. -/
structure Selector where
  resource_id : Option String
  text : Option String
  content_desc : Option String

/-- Final `/`-segment of a resource id: `rid.split("/").pop()` when `rid`
contains `/`, otherwise `rid` itself (source lines 139-141). -/
def idPartOf (rid : String) : String :=
  if rid.data.contains '/' then
    String.mk ((rid.data.reverse.takeWhile (fun c => c != '/')).reverse)
  else rid

/-- Per-node selector predicate (body of the loop, source lines 135-149). -/
def matchesSel (sel : Selector) (el : UiElement) : Bool :=
  (match sel.resource_id with
   | none => true
   | some v => el.resource_id == v || idPartOf el.resource_id == v)
  && (match sel.text with
      | none => true
      | some v => el.text == v)
  && (match sel.content_desc with
      | none => true
      | some v => el.content_desc == v)

def findWalk (sel : Selector) : UiList → List UiElement
  | .nil => []
  | .cons (.mk a b c d e f g h i cs) rest =>
      (if matchesSel sel (.mk a b c d e f g h i cs)
        then [UiElement.mk a b c d e f g h i cs] else [])
        ++ findWalk sel cs ++ findWalk sel rest

/-- Embedding of `findElements` (source lines 127-161). -/
def findElements (roots : UiList) (sel : Selector) : List UiElement :=
  findWalk sel roots

/-- Pre-order depth-first enumeration of a forest: a node before its children,
all descendants visited. -/
def preorderF : UiList → List UiElement
  | .nil => []
  | .cons (.mk a b c d e f g h i cs) rest =>
      UiElement.mk a b c d e f g h i cs :: (preorderF cs ++ preorderF rest)

/-- Selector semantics as stated by the spec: every present field must hold;
`resource_id` matches verbatim or by final `/`-segment; `text` and
`content_desc` by exact equality; absent fields impose no constraint. -/
def selectorSpec (sel : Selector) (el : UiElement) : Prop :=
  (∀ v, sel.resource_id = some v → (el.resource_id = v ∨ idPartOf el.resource_id = v))
  ∧ (∀ v, sel.text = some v → el.text = v)
  ∧ (∀ v, sel.content_desc = some v → el.content_desc = v)

def nodeRid (r : String) : UiElement :=
  .mk r "" "" "" "" (Rect.mk 0 0 0 0) false false false .nil

/-- Four-node forest exercising the `resource_id` matching rule. -/
def forestX : UiList :=
  .cons (nodeRid "com.app:id/x") (.cons (nodeRid "x")
    (.cons (nodeRid "xx") (.cons (nodeRid "com.app:id/xx") .nil)))

def selX : Selector := ⟨some "x", none, none⟩

/-- C1: `findElements` returns exactly the nodes satisfying the selector, in
pre-order depth-first order over the whole forest; the per-node test is
equivalent to the spec's selector semantics; and on the four-node example,
selector `{resource_id: "x"}` matches exactly the nodes with raw ids
`com.app:id/x` and `x` (not `xx`, not `com.app:id/xx`). -/
theorem thm_C1_findElements_preorder :
    (∀ (roots : UiList) (sel : Selector),
      findElements roots sel = (preorderF roots).filter (matchesSel sel))
    ∧ (∀ (sel : Selector) (el : UiElement), matchesSel sel el = true ↔ selectorSpec sel el)
    ∧ findElements forestX selX = [nodeRid "com.app:id/x", nodeRid "x"] := by
  refine ⟨?_, ?_, ?_⟩
  · intro roots sel
    show findWalk sel roots = (preorderF roots).filter (matchesSel sel)
    refine forestInd (fun els => findWalk sel els = (preorderF els).filter (matchesSel sel))
      ?_ ?_ roots
    · simp [findWalk, preorderF]
    · intro a b c d e f g h i cs rest h1 h2
      by_cases hm : matchesSel sel (.mk a b c d e f g h i cs) = true
      · simp [findWalk, preorderF, h1, h2, hm]
      · simp [findWalk, preorderF, h1, h2, hm]
  · intro sel el
    obtain ⟨r?, t?, c?⟩ := sel
    cases r? <;> cases t? <;> cases c? <;>
      simp [matchesSel, selectorSpec, beq_iff_eq, and_assoc]
  · rfl

/-- Witness for C1: the general pre-order/filter law instantiated on the
four-node example forest. -/
theorem w_C1 : findElements forestX selX = (preorderF forestX).filter (matchesSel selX) :=
  thm_C1_findElements_preorder.1 forestX selX

/-! ## Element center (`elementCenter`, source lines 166-171)

The source computes `Math.round(x + width/2)` and `Math.round(y + height/2)`.
With integer `x` and `width`, `x + width/2` is exactly the half-integer
`(2x + width)/2` (float64 is exact here), and JS `Math.round` on a
half-integer `n/2` is `n/2` for even `n` and the exact integer `(n+1)/2` for
odd `n` (ties round toward positive infinity). -/

def mathRoundHalf (n : Int) : Int := if n % 2 = 0 then n / 2 else (n + 1) / 2

/-- Embedding of `elementCenter`: midpoint of the node's rectangle. -/
def elementCenter (el : UiElement) : Int × Int :=
  (mathRoundHalf (2 * el.bounds.x + el.bounds.width),
   mathRoundHalf (2 * el.bounds.y + el.bounds.height))

/-- Round-half-upward (toward positive infinity) of the half-integer `n/2`:
`floor(n/2 + 1/2)`. -/
def roundHalfUpSpec (n : Int) : Int := (n + 1) / 2

/-- Round-half-away-from-zero of the half-integer `n/2`. -/
def roundHalfAwayFromZero (n : Int) : Int :=
  if 0 ≤ n then (n + 1) / 2 else -(((-n) + 1) / 2)

theorem mathRoundHalf_eq_up (n : Int) : mathRoundHalf n = roundHalfUpSpec n := by
  unfold mathRoundHalf roundHalfUpSpec
  split
  · omega
  · rfl

def elC9 : UiElement := .mk "" "" "" "" "" (Rect.mk 0 0 (-5) 0) false false false .nil

/-- Counterexample for C9: on the data-model rectangle `x=0, width=-5`
(inverted, as the claim explicitly allows) the code returns midpoint
`Math.round(-2.5) = -2`, which is not round-half-away-from-zero (`-3`). -/
theorem cex_C9_not_away_from_zero :
    (elementCenter elC9).1 = -2
    ∧ roundHalfAwayFromZero (2 * elC9.bounds.x + elC9.bounds.width) = -3
    ∧ (elementCenter elC9).1 ≠ roundHalfAwayFromZero (2 * elC9.bounds.x + elC9.bounds.width) := by
  refine ⟨by decide, by decide, by decide⟩

/-- C9 (amended): for every node, `elementCenter` returns the midpoint
`(round(x + width/2), round(y + height/2))` where rounding is
round-half-toward-positive-infinity (an exact 0.5 fraction always rounds
upward, e.g. `-2.5` to `-2`); this holds for every rectangle of the data
model, including degenerate and inverted ones, with no failure mode. -/
theorem thm_C9_center_half_up (el : UiElement) :
    elementCenter el = (roundHalfUpSpec (2 * el.bounds.x + el.bounds.width),
      roundHalfUpSpec (2 * el.bounds.y + el.bounds.height)) := by
  unfold elementCenter
  rw [mathRoundHalf_eq_up, mathRoundHalf_eq_up]

/-! ## Tree renderers (`shortenClassName`, `formatCompactTree`,
`flattenHierarchy`, source lines 176-244) -/

/-- Final `.`-segment of a class name (`cls.slice(lastDot + 1)`). -/
def afterLastDot (s : String) : String :=
  String.mk ((s.data.reverse.takeWhile (fun c => c != '.')).reverse)

/-- Embedding of `shortenClassName` (source lines 176-186); the dropped
counts are the lengths of the literal package strings. -/
def shortenClassName (cls : String) : String :=
  if "android.widget.".data.isPrefixOf cls.data then String.mk (cls.data.drop 15)
  else if "android.view.".data.isPrefixOf cls.data then String.mk (cls.data.drop 13)
  else if "android.webkit.".data.isPrefixOf cls.data then String.mk (cls.data.drop 15)
  else if "androidx.".data.isPrefixOf cls.data then
    (if cls.data.contains '.' then afterLastDot cls else cls)
  else cls

def quoteStr (s : String) : String := "\"" ++ s ++ "\""

/-- Rectangle rendered as `[x,y wxh]`. -/
def boundsRender (b : Rect) : String :=
  "[" ++ toString b.x ++ "," ++ toString b.y ++ " "
    ++ toString b.width ++ "x" ++ toString b.height ++ "]"

/-- The space-joined parts of one compact line (source lines 198-214): class,
optional quoted text, bounds, optional short id, optional quoted description,
optional `[clickable]` / `[scrollable]` flags. -/
def compactParts (el : UiElement) : List String :=
  match el with
  | .mk rid tx cd cls _ b cl _ sc _ =>
    [shortenClassName cls]
      ++ (if tx != "" then [quoteStr tx] else [])
      ++ [boundsRender b]
      ++ (if rid != "" then ["id:" ++ idPartOf rid] else [])
      ++ (if cd != "" then ["desc:" ++ quoteStr cd] else [])
      ++ (if cl then ["[clickable]"] else [])
      ++ (if sc then ["[scrollable]"] else [])

def indentStr (d : Nat) : String := String.mk (List.replicate (2 * d) ' ')

def compactLine (el : UiElement) (depth : Nat) : String :=
  indentStr depth ++ String.intercalate " " (compactParts el)

/-- The recursive walk of `formatCompactTree` (source lines 194-219): nothing
is emitted, for the whole subforest, once `depth > maxDepth`. -/
def compactWalk : UiList → Nat → Nat → List String
  | els, depth, maxD =>
    if depth > maxD then []
    else match els with
      | .nil => []
      | .cons (.mk a b c d e f g h i cs) rest =>
          compactLine (.mk a b c d e f g h i cs) depth
            :: (compactWalk cs (depth + 1) maxD ++ compactWalk rest depth maxD)

/-- Embedding of `formatCompactTree` (source lines 191-223). -/
def formatCompactTree (roots : UiList) (maxDepth : Nat := 15) : String :=
  String.intercalate "\n" (compactWalk roots 0 maxDepth)

/-- Depth-annotated unlimited compact rendering (every line of the rendering
with no depth limit, paired with the true depth of its node). -/
def annWalk : UiList → Nat → List (Nat × String)
  | .nil, _ => []
  | .cons (.mk a b c d e f g h i cs) rest, depth =>
      (depth, compactLine (.mk a b c d e f g h i cs) depth)
        :: (annWalk cs (depth + 1) ++ annWalk rest depth)

/-- Flattened record: the node's own fields plus its depth, with an empty
children sequence (`{...el, depth, children: []}`). -/
structure FlatUiElement where
  resource_id : String
  text : String
  content_desc : String
  className : String
  packageName : String
  bounds : Rect
  clickable : Bool
  enabled : Bool
  scrollable : Bool
  children : UiList
  depth : Nat

def toFlat (el : UiElement) (depth : Nat) : FlatUiElement :=
  match el with
  | .mk a b c d e f g h i _ => ⟨a, b, c, d, e, f, g, h, i, .nil, depth⟩

/-- The recursive walk of `flattenHierarchy` (source lines 234-240). -/
def flatWalk : UiList → Nat → Nat → List FlatUiElement
  | els, depth, maxD =>
    if depth > maxD then []
    else match els with
      | .nil => []
      | .cons (.mk a b c d e f g h i cs) rest =>
          toFlat (.mk a b c d e f g h i cs) depth
            :: (flatWalk cs (depth + 1) maxD ++ flatWalk rest depth maxD)

/-- Embedding of `flattenHierarchy` (source lines 228-244). -/
def flattenHierarchy (roots : UiList) (maxDepth : Nat := 20) : List FlatUiElement :=
  flatWalk roots 0 maxDepth

/-- Unlimited pre-order flattening with true depths: the spec-side reference
sequence (node before children, each record with its true depth and empty
children). -/
def flatPre : UiList → Nat → List FlatUiElement
  | .nil, _ => []
  | .cons (.mk a b c d e f g h i cs) rest, depth =>
      toFlat (.mk a b c d e f g h i cs) depth
        :: (flatPre cs (depth + 1) ++ flatPre rest depth)

theorem flatPre_depth_ge :
    ∀ els, ∀ d r, r ∈ flatPre els d → d ≤ r.depth := by
  refine forestInd (fun els => ∀ d r, r ∈ flatPre els d → d ≤ r.depth) ?_ ?_
  · intro d r hr; simp [flatPre] at hr
  · intro a b c d e f g h i cs rest ih1 ih2 dep r hr
    simp only [flatPre, List.mem_cons, List.mem_append] at hr
    rcases hr with hr | hr | hr
    · subst hr; simp [toFlat]
    · have := ih1 (dep + 1) r hr; omega
    · exact ih2 dep r hr

theorem flatPre_depth_lt :
    ∀ els, ∀ d r, r ∈ flatPre els d → r.depth < d + forestHeight els := by
  refine forestInd (fun els => ∀ d r, r ∈ flatPre els d → r.depth < d + forestHeight els) ?_ ?_
  · intro d r hr; simp [flatPre] at hr
  · intro a b c d e f g h i cs rest ih1 ih2 dep r hr
    simp only [flatPre, List.mem_cons, List.mem_append] at hr
    simp only [forestHeight]
    rcases hr with hr | hr | hr
    · subst hr; simp [toFlat]
    · have := ih1 (dep + 1) r hr; omega
    · have := ih2 dep r hr; omega

theorem flatWalk_filter :
    ∀ els, ∀ d k, flatWalk els d k = (flatPre els d).filter (fun r => decide (r.depth ≤ k)) := by
  refine forestInd
    (fun els => ∀ d k, flatWalk els d k = (flatPre els d).filter (fun r => decide (r.depth ≤ k)))
    ?_ ?_
  · intro d k
    cases Nat.decLt k d with
    | isTrue hlt => simp [flatWalk, flatPre, Nat.lt_iff_add_one_le, hlt]
    | isFalse hge => simp [flatWalk, flatPre]
  · intro a b c d e f g h i cs rest ih1 ih2 dep k
    by_cases hd : dep > k
    · have hnil : (flatPre (.cons (.mk a b c d e f g h i cs) rest) dep).filter
          (fun r => decide (r.depth ≤ k)) = [] := by
        rw [List.filter_eq_nil_iff]
        intro r hr
        have := flatPre_depth_ge _ dep r hr
        simp only [decide_eq_true_eq]
        omega
      rw [hnil]
      simp [flatWalk, hd]
    · have hdep : decide (dep ≤ k) = true := by simp; omega
      simp only [flatWalk, if_neg hd, flatPre, List.filter_cons, List.filter_append,
        toFlat, hdep, ih1, ih2]
      simp [toFlat]

theorem flatPre_all_le :
    ∀ (els : UiList) (d K : Nat), d + forestHeight els ≤ K + 1 →
      ∀ r ∈ flatPre els d, decide (r.depth ≤ K) = true := by
  intro els d K hK r hr
  have := flatPre_depth_lt els d r hr
  simp only [decide_eq_true_eq]
  omega

theorem flatWalk_unlimited (els : UiList) (d K : Nat) (hK : d + forestHeight els ≤ K + 1) :
    flatWalk els d K = flatPre els d := by
  rw [flatWalk_filter els d K, List.filter_eq_self.mpr (flatPre_all_le els d K hK)]

theorem flatPre_length :
    ∀ els, ∀ d, (flatPre els d).length = forestSize els := by
  refine forestInd (fun els => ∀ d, (flatPre els d).length = forestSize els) ?_ ?_
  · intro d; simp [flatPre, forestSize]
  · intro a b c d e f g h i cs rest ih1 ih2 dep
    simp [flatPre, forestSize, ih1, ih2]
    omega

theorem flatPre_children_nil :
    ∀ els, ∀ d, ∀ r ∈ flatPre els d, r.children = UiList.nil := by
  refine forestInd (fun els => ∀ d, ∀ r ∈ flatPre els d, r.children = UiList.nil) ?_ ?_
  · intro d r hr; simp [flatPre] at hr
  · intro a b c d e f g h i cs rest ih1 ih2 dep r hr
    simp only [flatPre, List.mem_cons, List.mem_append] at hr
    rcases hr with hr | hr | hr
    · subst hr; rfl
    · exact ih1 (dep + 1) r hr
    · exact ih2 dep r hr

theorem annWalk_depth_ge :
    ∀ els, ∀ d p, p ∈ annWalk els d → d ≤ p.1 := by
  refine forestInd (fun els => ∀ d p, p ∈ annWalk els d → d ≤ p.1) ?_ ?_
  · intro d p hp; simp [annWalk] at hp
  · intro a b c d e f g h i cs rest ih1 ih2 dep p hp
    simp only [annWalk, List.mem_cons, List.mem_append] at hp
    rcases hp with hp | hp | hp
    · subst hp; simp
    · have := ih1 (dep + 1) p hp; omega
    · exact ih2 dep p hp

theorem annWalk_depth_lt :
    ∀ els, ∀ d p, p ∈ annWalk els d → p.1 < d + forestHeight els := by
  refine forestInd (fun els => ∀ d p, p ∈ annWalk els d → p.1 < d + forestHeight els) ?_ ?_
  · intro d p hp; simp [annWalk] at hp
  · intro a b c d e f g h i cs rest ih1 ih2 dep p hp
    simp only [annWalk, List.mem_cons, List.mem_append] at hp
    simp only [forestHeight]
    rcases hp with hp | hp | hp
    · subst hp; simp
    · have := ih1 (dep + 1) p hp; omega
    · have := ih2 dep p hp; omega

theorem compactWalk_filter :
    ∀ els, ∀ d k, compactWalk els d k =
      ((annWalk els d).filter (fun p => decide (p.1 ≤ k))).map Prod.snd := by
  refine forestInd (fun els => ∀ d k, compactWalk els d k =
      ((annWalk els d).filter (fun p => decide (p.1 ≤ k))).map Prod.snd) ?_ ?_
  · intro d k
    by_cases hd : d > k
    · simp [compactWalk, annWalk, hd]
    · simp [compactWalk, annWalk, hd]
  · intro a b c d e f g h i cs rest ih1 ih2 dep k
    by_cases hd : dep > k
    · have hnil : (annWalk (.cons (.mk a b c d e f g h i cs) rest) dep).filter
          (fun p => decide (p.1 ≤ k)) = [] := by
        rw [List.filter_eq_nil_iff]
        intro p hp
        have := annWalk_depth_ge _ dep p hp
        simp only [decide_eq_true_eq]
        omega
      rw [hnil]
      simp [compactWalk, hd]
    · have hdep : decide (dep ≤ k) = true := by simp; omega
      simp only [compactWalk, if_neg hd, annWalk, List.filter_cons, List.filter_append,
        hdep, ih1, ih2]
      simp

theorem annWalk_all_le :
    ∀ (els : UiList) (d K : Nat), d + forestHeight els ≤ K + 1 →
      ∀ p ∈ annWalk els d, decide (p.1 ≤ K) = true := by
  intro els d K hK p hp
  have := annWalk_depth_lt els d p hp
  simp only [decide_eq_true_eq]
  omega

theorem compactWalk_unlimited (els : UiList) (d K : Nat) (hK : d + forestHeight els ≤ K + 1) :
    compactWalk els d K = (annWalk els d).map Prod.snd := by
  rw [compactWalk_filter els d K, List.filter_eq_self.mpr (annWalk_all_le els d K hK)]

/-- Two-level example forest: a FrameLayout root with one Button child. -/
def elBtn : UiElement :=
  .mk "com.app:id/btn" "OK" "" "android.widget.Button" "com.app"
    (Rect.mk 0 0 10 10) true true false .nil

def forestF0 : UiList :=
  .cons (.mk "" "" "" "android.widget.FrameLayout" "com.app"
    (Rect.mk 0 0 100 100) false true false (.cons elBtn .nil)) .nil

/-- C3: with depth limit `k`, neither renderer emits a node of true depth
above `k`, and each emits exactly the restriction of the unlimited rendering
(obtained with any limit `K` large enough for the whole forest) to nodes of
depth at most `k`, in the same order; a node beyond the limit is omitted with
its whole subtree.  `annWalk` is the unlimited rendering annotated with true
depths (conjunct four states that it is precisely the unlimited rendering). -/
theorem thm_C3_depth_limit (roots : UiList) (k K : Nat) (hK : forestHeight roots ≤ K + 1) :
    (∀ r ∈ flattenHierarchy roots k, r.depth ≤ k)
    ∧ flattenHierarchy roots k = (flattenHierarchy roots K).filter (fun r => decide (r.depth ≤ k))
    ∧ compactWalk roots 0 k = ((annWalk roots 0).filter (fun p => decide (p.1 ≤ k))).map Prod.snd
    ∧ compactWalk roots 0 K = (annWalk roots 0).map Prod.snd
    ∧ formatCompactTree roots k =
        String.intercalate "\n" (((annWalk roots 0).filter (fun p => decide (p.1 ≤ k))).map Prod.snd) := by
  have h2 : flattenHierarchy roots K = flatPre roots 0 :=
    flatWalk_unlimited roots 0 K (by omega)
  refine ⟨?_, ?_, ?_, ?_, ?_⟩
  · intro r hr
    rw [show flattenHierarchy roots k = flatWalk roots 0 k from rfl,
      flatWalk_filter roots 0 k] at hr
    have := List.of_mem_filter hr
    simpa using this
  · rw [show flattenHierarchy roots k = flatWalk roots 0 k from rfl,
      flatWalk_filter roots 0 k, h2]
  · exact compactWalk_filter roots 0 k
  · exact compactWalk_unlimited roots 0 K (by omega)
  · rw [show formatCompactTree roots k = String.intercalate "\n" (compactWalk roots 0 k) from rfl,
      compactWalk_filter roots 0 k]

/-- Witness for C3: the restriction law at the two-level example with `k = 0`,
`K = 5`. -/
theorem w_C3 : flattenHierarchy forestF0 0 =
    (flattenHierarchy forestF0 5).filter (fun r => decide (r.depth ≤ 0)) :=
  (thm_C3_depth_limit forestF0 0 5 (by decide)).2.1

/-- Chain of `n + 1` nodes nested one inside the next. -/
def chainEl : Nat → UiElement
  | 0 => nodeRid ""
  | n + 1 => .mk "" "" "" "" "" (Rect.mk 0 0 0 0) false false false (.cons (chainEl n) .nil)

/-- Counterexample for C7: a forest of 22 nodes (a 22-deep chain) flattens,
with the source's default depth limit of 20, to only 21 records — not one
record per node as the claim states for every forest. -/
theorem cex_C7_deep_chain :
    (flattenHierarchy (.cons (chainEl 21) .nil)).length = 21
    ∧ forestSize (.cons (chainEl 21) .nil) = 22
    ∧ (flattenHierarchy (.cons (chainEl 21) .nil)).length ≠
        forestSize (.cons (chainEl 21) .nil) := by
  refine ⟨by decide, by decide, by decide⟩

/-- C7 (amended): for every forest of `N` nodes all of whose depths are within
the depth limit, `flattenHierarchy` yields exactly `N` records, equal to the
pre-order sequence annotated with true depths (root = 0), each record carrying
the node's own fields with an empty children sequence. -/
theorem thm_C7_flatten_preorder (roots : UiList) (maxD : Nat)
    (h : forestHeight roots ≤ maxD + 1) :
    flattenHierarchy roots maxD = flatPre roots 0
    ∧ (flattenHierarchy roots maxD).length = forestSize roots
    ∧ (∀ r ∈ flattenHierarchy roots maxD, r.children = UiList.nil) := by
  have h1 : flattenHierarchy roots maxD = flatPre roots 0 :=
    flatWalk_unlimited roots 0 maxD (by omega)
  refine ⟨h1, ?_, ?_⟩
  · rw [h1, flatPre_length roots 0]
  · intro r hr
    rw [h1] at hr
    exact flatPre_children_nil roots 0 r hr

/-- Witness for C7: the amended round-trip at the two-level example forest. -/
theorem w_C7 : (flattenHierarchy forestF0 20).length = forestSize forestF0 :=
  (thm_C7_flatten_preorder forestF0 20 (by decide)).2.1

/-! ## Structural parser (`parseUiAutomatorXml`, source lines 49-94)

The source scans the document with the global regex
`<node\s+([^>]*?)\s*\/?>|<\/node>`, keeping an explicit stack of open nodes.
Tokenisation: a close token is the literal `</node>`; an open token starts
with `<node`, requires at least one whitespace character after it, and runs
to the first following `>`; its capture group is the span between the
whitespace run and the `>`, with the lazy/greedy interplay of
`([^>]*?)\s*\/?` resolving to stripping one final `/` (if the span ends with
it) and then the trailing whitespace run; the token is self-closing iff the
span ends with `/`.  The fuel of the scanner is the input length: every step
consumes at least one character. -/

/-- ASCII whitespace, the subset of JS `\s` relevant to the dump format. -/
def isWsChar (c : Char) : Bool :=
  c = ' ' || c = '\t' || c = '\n' || c = '\r' || c = '\x0b' || c = '\x0c'

inductive Token where
  | openTag (attrs : String) (selfClosing : Bool)
  | closeTag

/-- Capture group and self-closing flag of an open token, from the span
between `<node\s` and `>` (leading whitespace included). -/
def mkAttrsOf (body : List Char) : String × Bool :=
  let g0 := body.dropWhile (fun c => isWsChar c)
  match g0.reverse with
  | '/' :: r => (String.mk ((r.dropWhile (fun c => isWsChar c)).reverse), true)
  | r => (String.mk ((r.dropWhile (fun c => isWsChar c)).reverse), false)

/-- Try to match an open token at the current position; on success returns
the capture, the self-closing flag, and the length `k` of the span (the whole
match consumes `5 + k + 1` characters). -/
def openAt (l : List Char) : Option (String × Bool × Nat) :=
  if "<node".data.isPrefixOf l then
    match l.drop 5 with
    | [] => none
    | c :: _ =>
      if isWsChar c then
        match (l.drop 5).findIdx? (fun ch => ch == '>') with
        | some k =>
          let p := mkAttrsOf ((l.drop 5).take k)
          some (p.1, p.2, k)
        | none => none
      else none
  else none

def tokenizeAux : Nat → List Char → List Token
  | 0, _ => []
  | _ + 1, [] => []
  | fuel + 1, c :: rest =>
    if "</node>".data.isPrefixOf (c :: rest) then
      Token.closeTag :: tokenizeAux fuel (rest.drop 6)
    else
      match openAt (c :: rest) with
      | some (attrs, sc, k) => Token.openTag attrs sc :: tokenizeAux fuel (rest.drop (5 + k))
      | none => tokenizeAux fuel rest

def tokenize (l : List Char) : List Token := tokenizeAux l.length l

/-- Append `child` at the end of `parent`'s children
(`stack[stack.length-1].children.push(element)`). -/
def addChild (parent child : UiElement) : UiElement :=
  match parent with
  | .mk a b c d e f g h i cs => .mk a b c d e f g h i (cs.snoc child)

/-- Attach a finished node into the remaining open ancestors (innermost
first); models that in the source an unterminated node was already attached
to its parent when it was opened. -/
def collapseInto (child : UiElement) : List UiElement → UiElement
  | [] => child
  | parent :: rest => collapseInto (addChild parent child) rest

/-- Final value of the output sequence when input ends with open nodes left
on the stack. -/
def collapseStack (out : UiList) : List UiElement → UiList
  | [] => out
  | top :: rest => out.snoc (collapseInto top rest)

/-- Token-level semantics of the source's scan loop (source lines 57-91),
with the mutable attach-at-open of the source realised as attach-at-close
(or at end of input), which produces the same forest: a node can only gain
a next sibling after it has been popped, so sibling order is preserved.
A close token with an empty stack is a no-op (`stack.pop()` on an empty JS
array). -/
def parseTokens : List Token → UiList → List UiElement → UiList
  | [], out, stack => collapseStack out stack
  | Token.closeTag :: ts, out, stack =>
    match stack with
    | [] => parseTokens ts out []
    | top :: more =>
      match more with
      | [] => parseTokens ts (out.snoc top) []
      | parent :: rest => parseTokens ts out (addChild parent top :: rest)
  | Token.openTag attrs sc :: ts, out, stack =>
    if sc then
      match stack with
      | [] => parseTokens ts (out.snoc (mkUiElement attrs)) []
      | top :: rest => parseTokens ts out (addChild top (mkUiElement attrs) :: rest)
    else parseTokens ts out (mkUiElement attrs :: stack)

/-- Embedding of `parseUiAutomatorXml` (source lines 49-94). -/
def parseUiAutomatorXml (xml : String) : UiList :=
  parseTokens (tokenize xml.data) .nil []

/-- C6: a closing token encountered with an empty stack of open nodes is a
recoverable no-op: parsing simply continues (no error is possible, the
functions being total), and the forest built so far is unaltered; stated for
every continuation of the token stream and every output built so far, tied to
the string-level parser, and exhibited end-to-end on an input with a stray
leading `</node>`. -/
theorem thm_C6_stray_close_noop :
    (∀ (ts : List Token) (out : UiList),
      parseTokens (Token.closeTag :: ts) out [] = parseTokens ts out [])
    ∧ (∀ xml : String, parseUiAutomatorXml xml = parseTokens (tokenize xml.data) UiList.nil [])
    ∧ parseUiAutomatorXml "</node><node resource-id=\"a\" />" =
        parseUiAutomatorXml "<node resource-id=\"a\" />" := by
  exact ⟨fun ts out => rfl, fun xml => rfl, rfl⟩

/-! ## Capture orchestrator (`getUiHierarchy`, source lines 108-122)

The external `adb` invocation is out of scope; `getUiHierarchyPure` is the
pure remainder of `getUiHierarchy` applied to the raw dump text.  The trailer
regex `/UI hierarch?y dumped to:.*$/i` is embedded as: the leftmost position
at which the case-insensitive literal `UI hierarc`, an optional `h`, and the
case-insensitive literal `y dumped to:` match, followed by no line break up
to the end of the input (`.` does not match line breaks and `$` without `m`
anchors at the end); `replace` erases from that position to the end. -/

def litMatchCaseless : List Char → List Char → Option (List Char)
  | [], l => some l
  | _ :: _, [] => none
  | p :: ps, c :: cs => if c.toLower = p then litMatchCaseless ps cs else none

def noLineBreak (l : List Char) : Bool := l.all (fun c => c != '\n' && c != '\r')

/-- Does the trailer pattern match here?  After the optional `h` the pattern
requires `y`; an `h` cannot satisfy `y`, so no backtracking arises. -/
def trailerAt (l : List Char) : Bool :=
  match litMatchCaseless "ui hierarc".data l with
  | none => false
  | some r1 =>
    match r1 with
    | [] => false
    | c :: r2 =>
      if c.toLower = 'h' then
        match litMatchCaseless "y dumped to:".data r2 with
        | none => false
        | some r3 => noLineBreak r3
      else
        match litMatchCaseless "y dumped to:".data (c :: r2) with
        | none => false
        | some r3 => noLineBreak r3

/-- Erase from the leftmost trailer match to the end of the input. -/
def stripTrailer : List Char → List Char
  | [] => []
  | c :: rest => if trailerAt (c :: rest) then [] else c :: stripTrailer rest

def trimChars (l : List Char) : List Char :=
  ((l.dropWhile (fun c => isWsChar c)).reverse.dropWhile (fun c => isWsChar c)).reverse

/-- Trailer-stripped, whitespace-trimmed dump text (source line 115). -/
def cleanedDump (xml : String) : String := String.mk (trimChars (stripTrailer xml.data))

def containsSub : List Char → List Char → Bool
  | hay, needle =>
    if needle.isPrefixOf hay then true
    else
      match hay with
      | [] => false
      | _ :: r => containsSub r needle

/-- First `n` characters (JS `slice(0, n)`). -/
def jsSlice (s : String) (n : Nat) : String := String.mk (s.data.take n)

/-- Pure core of `getUiHierarchy` (source lines 108-122) on the raw dump
text: clean, validate the envelope, parse. -/
def getUiHierarchyPure (xml : String) : Except String UiList :=
  let content := cleanedDump xml
  if containsSub content.data "<hierarchy".data then
    Except.ok (parseUiAutomatorXml content)
  else
    Except.error ("UIAutomator dump returned unexpected output: " ++ jsSlice content 200)

def exceptIsOk : Except String UiList → Bool
  | .ok _ => true
  | .error _ => false

/-- C4 (code bug exhibit): cleaning and envelope validation of the capture
orchestrator.  Conjunct one: the call succeeds iff the cleaned text contains
`<hierarchy` (so text without it always errors, never yields a forest).
Conjuncts two and three: the device tool's actual trailer spelling
`hierchary` (quoted in the source's own comment) is NOT stripped by the
code's pattern `hierarch?y`, and the resulting error carries the unstripped
trailer as its excerpt — contradicting the claim that the misspelling is
tolerated.  Conjuncts four and five: the spellings `hierarchy` and
`hierarcy`, which the pattern does cover, are stripped. -/
theorem thm_C4_trailer_spelling :
    (∀ xml : String,
      exceptIsOk (getUiHierarchyPure xml) = containsSub (cleanedDump xml).data "<hierarchy".data)
    ∧ cleanedDump "UI hierchary dumped to: /dev/tty" = "UI hierchary dumped to: /dev/tty"
    ∧ getUiHierarchyPure "UI hierchary dumped to: /dev/tty" =
        Except.error "UIAutomator dump returned unexpected output: UI hierchary dumped to: /dev/tty"
    ∧ cleanedDump "<hierarchy></hierarchy>\nUI hierarchy dumped to: /dev/tty" =
        "<hierarchy></hierarchy>"
    ∧ cleanedDump "<hierarchy></hierarchy>\nUI hierarcy dumped to: /dev/tty" =
        "<hierarchy></hierarchy>" := by
  refine ⟨?_, rfl, rfl, rfl, rfl⟩
  intro xml
  cases hc : containsSub (cleanedDump xml).data "<hierarchy".data with
  | true => simp [getUiHierarchyPure, exceptIsOk, hc]
  | false => simp [getUiHierarchyPure, exceptIsOk, hc]

/-! ## Read-only character of the traversals (frame property)

The three operations only read the forest.  To make that a statement rather
than a convention of the embedding, each is re-translated in state-passing
style: the forest is threaded through the call and returned, every node being
rebuilt exactly as the recursion left it (a mutating implementation would
have to return a different forest here).  The first components coincide with
the plain embeddings; the second components are the forest after the call. -/

def findWalkF (sel : Selector) : UiList → (List UiElement × UiList)
  | .nil => ([], .nil)
  | .cons (.mk a b c d e f g h i cs) rest =>
      let p1 := findWalkF sel cs
      let p2 := findWalkF sel rest
      ((if matchesSel sel (.mk a b c d e f g h i cs)
          then [UiElement.mk a b c d e f g h i cs] else []) ++ p1.1 ++ p2.1,
        .cons (.mk a b c d e f g h i p1.2) p2.2)

def compactWalkF : UiList → Nat → Nat → (List String × UiList)
  | els, depth, maxD =>
    if depth > maxD then ([], els)
    else match els with
      | .nil => ([], .nil)
      | .cons (.mk a b c d e f g h i cs) rest =>
          let p1 := compactWalkF cs (depth + 1) maxD
          let p2 := compactWalkF rest depth maxD
          (compactLine (.mk a b c d e f g h i cs) depth :: (p1.1 ++ p2.1),
            .cons (.mk a b c d e f g h i p1.2) p2.2)

def flatWalkF : UiList → Nat → Nat → (List FlatUiElement × UiList)
  | els, depth, maxD =>
    if depth > maxD then ([], els)
    else match els with
      | .nil => ([], .nil)
      | .cons (.mk a b c d e f g h i cs) rest =>
          let p1 := flatWalkF cs (depth + 1) maxD
          let p2 := flatWalkF rest depth maxD
          (toFlat (.mk a b c d e f g h i cs) depth :: (p1.1 ++ p2.1),
            .cons (.mk a b c d e f g h i p1.2) p2.2)

theorem findWalkF_spec :
    ∀ els, ∀ sel : Selector,
      (findWalkF sel els).2 = els ∧ (findWalkF sel els).1 = findWalk sel els := by
  refine forestInd (fun els => ∀ sel : Selector,
    (findWalkF sel els).2 = els ∧ (findWalkF sel els).1 = findWalk sel els) ?_ ?_
  · intro sel; exact ⟨rfl, rfl⟩
  · intro a b c d e f g h i cs rest ih1 ih2 sel
    obtain ⟨h1s, h1f⟩ := ih1 sel
    obtain ⟨h2s, h2f⟩ := ih2 sel
    constructor
    · simp only [findWalkF, h1s, h2s]
    · simp only [findWalkF, findWalk, h1f, h2f]

theorem compactWalkF_spec :
    ∀ els, ∀ d m : Nat,
      (compactWalkF els d m).2 = els ∧ (compactWalkF els d m).1 = compactWalk els d m := by
  refine forestInd (fun els => ∀ d m : Nat,
    (compactWalkF els d m).2 = els ∧ (compactWalkF els d m).1 = compactWalk els d m) ?_ ?_
  · intro d m
    by_cases hd : d > m
    · constructor <;> simp [compactWalkF, compactWalk, hd]
    · constructor <;> simp [compactWalkF, compactWalk, hd]
  · intro a b c d e f g h i cs rest ih1 ih2 dep m
    by_cases hd : dep > m
    · constructor <;> simp [compactWalkF, compactWalk, hd]
    · obtain ⟨h1s, h1f⟩ := ih1 (dep + 1) m
      obtain ⟨h2s, h2f⟩ := ih2 dep m
      constructor
      · simp only [compactWalkF, if_neg hd, h1s, h2s]
      · simp only [compactWalkF, compactWalk, if_neg hd, h1f, h2f]

theorem flatWalkF_spec :
    ∀ els, ∀ d m : Nat,
      (flatWalkF els d m).2 = els ∧ (flatWalkF els d m).1 = flatWalk els d m := by
  refine forestInd (fun els => ∀ d m : Nat,
    (flatWalkF els d m).2 = els ∧ (flatWalkF els d m).1 = flatWalk els d m) ?_ ?_
  · intro d m
    by_cases hd : d > m
    · constructor <;> simp [flatWalkF, flatWalk, hd]
    · constructor <;> simp [flatWalkF, flatWalk, hd]
  · intro a b c d e f g h i cs rest ih1 ih2 dep m
    by_cases hd : dep > m
    · constructor <;> simp [flatWalkF, flatWalk, hd]
    · obtain ⟨h1s, h1f⟩ := ih1 (dep + 1) m
      obtain ⟨h2s, h2f⟩ := ih2 dep m
      constructor
      · simp only [flatWalkF, if_neg hd, h1s, h2s]
      · simp only [flatWalkF, flatWalk, if_neg hd, h1f, h2f]

/-- C10: the three read-only operations leave the input forest unchanged: in
state-passing form each returns the forest exactly as it received it (every
node keeping its fields and full children sequence) while computing the same
result as the plain embedding, and the records `flattenHierarchy` returns are
fresh values whose children sequence is empty, the original forest being
returned intact alongside them. -/
theorem thm_C10_read_only :
    (∀ (roots : UiList) (sel : Selector),
      (findWalkF sel roots).2 = roots ∧ (findWalkF sel roots).1 = findElements roots sel)
    ∧ (∀ (roots : UiList) (k : Nat),
      (compactWalkF roots 0 k).2 = roots ∧ (compactWalkF roots 0 k).1 = compactWalk roots 0 k)
    ∧ (∀ (roots : UiList) (j : Nat),
      (flatWalkF roots 0 j).2 = roots ∧ (flatWalkF roots 0 j).1 = flattenHierarchy roots j)
    ∧ (∀ (roots : UiList) (j : Nat), ∀ r ∈ flattenHierarchy roots j, r.children = UiList.nil) := by
  refine ⟨?_, ?_, ?_, ?_⟩
  · intro roots sel; exact findWalkF_spec roots sel
  · intro roots k; exact compactWalkF_spec roots 0 k
  · intro roots j; exact flatWalkF_spec roots 0 j
  · intro roots j r hr
    rw [show flattenHierarchy roots j = flatWalk roots 0 j from rfl,
      flatWalk_filter roots 0 j] at hr
    exact flatPre_children_nil roots 0 r (List.mem_of_mem_filter hr)

/-- Witness for C10: the frame law instantiated on the example forest. -/
theorem w_C10 : (findWalkF selX forestX).2 = forestX ∧
    (findWalkF selX forestX).1 = findElements forestX selX :=
  thm_C10_read_only.1 forestX selX
